import Mathlib

/-!
Verification of an 8-puzzle variant solver: a 3x3 sliding puzzle with four
acceptable goal boards and an automatic post-slide swap rule (tiles 1 and 3
are swapped whenever orthogonally adjacent, then tiles 2 and 4 likewise).
The development shallowly embeds the board/state model (`src/puzzle/state.py`,
`src/puzzle/game.py`), the two heuristics (`src/algorithm/heuristics.py`) and
the A* search engine (`src/algorithm/astar.py`), and proves or refutes the
specification claims about them.

Boards are row-major lists of 9 natural numbers (cell (i,j) at index 3*i+j,
0 is the blank); machine integers of the source are modelled by `ℕ`/`ℤ`;
the float infinity used as the initial heuristic minimum is modelled by `⊤`
in `WithTop ℕ`.
-/

namespace Puzzle

/-- Row-major 3x3 board: 9 cells, value 0 is the blank. -/
abbrev Board := List ℕ

/-- Embeds `State` of `src/puzzle/state.py`: a board plus the cached
coordinates of the blank cell (Python stores a `(row, col)` pair of ints). -/
structure State where
  board : Board
  blank : ℤ × ℤ
deriving DecidableEq

/-- Flat index of cell (i, j); meaningful for 0 ≤ i, j < 3. -/
def cellIdx (i j : ℤ) : ℕ := (3 * i + j).toNat

/-- Embeds `State._find_blank`: the (row, col) of the first cell holding 0. -/
def findBlank (b : Board) : ℤ × ℤ :=
  let k := b.findIdx (· = 0)
  (((k / 3 : ℕ) : ℤ), ((k % 3 : ℕ) : ℤ))

/-- Embeds the `State(board)` construction path, which locates the blank. -/
def mkState (b : Board) : State := ⟨b, findBlank b⟩

/-- Embeds `PuzzleGame._are_adjacent` on flat cell indices: orthogonal
adjacency of cells (|i1-i2| = 1 and j1 = j2, or |j1-j2| = 1 and i1 = i2). -/
def areAdjacent (p q : ℕ) : Bool :=
  decide ((((p / 3 : ℕ) : ℤ) - ((q / 3 : ℕ) : ℤ)).natAbs = 1 ∧ p % 3 = q % 3)
  || decide ((((p % 3 : ℕ) : ℤ) - ((q % 3 : ℕ) : ℤ)).natAbs = 1 ∧ p / 3 = q / 3)

/-- Last cell index (scanning row-major, as the Python dict fills by
overwriting) whose value is `v`; `none` if `v` does not occur. -/
def lastPos (b : Board) (v : ℕ) : Option ℕ :=
  (List.range 9).foldl (fun acc k => if b.getD k 0 = v then some k else acc) none

/-- Simultaneous exchange of the contents of cells `p` and `q`, as in the
Python tuple assignment `b[p], b[q] = b[q], b[p]`. -/
def swapCells (b : Board) (p q : ℕ) : Board :=
  (b.set p (b.getD q 0)).set q (b.getD p 0)

/-- First half of `PuzzleGame.apply_special_rules`: swap the cells holding 1
and 3 when they are orthogonally adjacent. -/
def swap13 (b : Board) : Board :=
  match lastPos b 1, lastPos b 3 with
  | some p1, some p3 => if areAdjacent p1 p3 then swapCells b p1 p3 else b
  | _, _ => b

/-- Second half of `PuzzleGame.apply_special_rules`: the positions of 2 and 4
are looked up in `b0` (the Python `positions` dict is filled before any swap),
while the swap reads and writes `b` (the board as left by the (1,3) swap). -/
def swap24 (b0 b : Board) : Board :=
  match lastPos b0 2, lastPos b0 4 with
  | some p2, some p4 => if areAdjacent p2 p4 then swapCells b p2 p4 else b
  | _, _ => b

/-- Embeds `PuzzleGame.apply_special_rules`: the positions of tiles 1, 2, 3, 4
are computed once on the incoming board; then 1 and 3 are swapped if adjacent,
then 2 and 4 are swapped if adjacent, the second swap reading and writing the
board as left by the first. -/
def applySpecialRules (b : Board) : Board := swap24 b (swap13 b)

/-- Spec-sequenced variant of the swap rule, following the specification text
for the refinement check of claim C4: the adjacency of tiles 2 and 4 is judged
on the positions as they stand after any (1,3) swap already applied. -/
def applySpecialRulesSpec (b : Board) : Board := swap24 (swap13 b) (swap13 b)

/-- The four goal boards of `PuzzleGame.__init__`, row-major. -/
def goalStates : List Board :=
  [[1, 2, 3, 4, 5, 6, 7, 8, 0],
   [8, 7, 6, 5, 4, 3, 2, 1, 0],
   [0, 1, 2, 3, 4, 5, 6, 7, 8],
   [0, 8, 7, 6, 5, 4, 3, 2, 1]]

/-- Embeds `State.is_goal`: cell-wise equality with some goal board. -/
def State.is_goal (s : State) (goals : List Board) : Bool :=
  goals.any (fun g => s.board == g)

/-- Embeds `PuzzleGame.is_solvable`, which unconditionally reports `True`. -/
def is_solvable (_s : State) : Bool := true

/-- The four candidate blank moves, in source order: up, down, left, right. -/
def moves : List (ℤ × ℤ) := [(-1, 0), (1, 0), (0, -1), (0, 1)]

/-- One blank slide: the blank cell `k` receives the value of the target cell
`m`, then cell `m` is set to 0 (the two sequential numpy assignments). -/
def slideBoard (b : Board) (k m : ℕ) : Board :=
  (b.set k (b.getD m 0)).set m 0

/-- Embeds `State.get_neighbors`: for each in-bounds blank move, slide the
blank, apply the automatic swap rule to the fresh board, and cache the new
blank coordinates. -/
def getNeighbors (s : State) : List State :=
  moves.filterMap (fun d =>
    let ni := s.blank.1 + d.1
    let nj := s.blank.2 + d.2
    if 0 ≤ ni ∧ ni < 3 ∧ 0 ≤ nj ∧ nj < 3 then
      some ⟨applySpecialRules
              (slideBoard s.board (cellIdx s.blank.1 s.blank.2) (cellIdx ni nj)),
            (ni, nj)⟩
    else none)

/-- Comparison transition model for the amended claim C3: a blank slide
without the automatic swap rule (the standard single-slide move model the
source code comments assert admissibility for). -/
def slideNeighbors (s : State) : List State :=
  moves.filterMap (fun d =>
    let ni := s.blank.1 + d.1
    let nj := s.blank.2 + d.2
    if 0 ≤ ni ∧ ni < 3 ∧ 0 ≤ nj ∧ nj < 3 then
      some ⟨slideBoard s.board (cellIdx s.blank.1 s.blank.2) (cellIdx ni nj),
            (ni, nj)⟩
    else none)

/-- Some goal is reachable from `s` in at most `n` transitions of the full
move model (slide plus automatic swaps), each transition costing 1. -/
def reachGoalIn : ℕ → State → Bool
  | 0, s => s.is_goal goalStates
  | n + 1, s => s.is_goal goalStates || (getNeighbors s).any (reachGoalIn n)

/-- Some goal is reachable from `s` in at most `n` plain slides (no swaps). -/
def slideReachGoalIn : ℕ → State → Bool
  | 0, s => s.is_goal goalStates
  | n + 1, s => s.is_goal goalStates || (slideNeighbors s).any (slideReachGoalIn n)

/-- Manhattan distance between flat cell indices. -/
def cellDist (p q : ℕ) : ℕ :=
  (((p / 3 : ℕ) : ℤ) - ((q / 3 : ℕ) : ℤ)).natAbs
    + (((p % 3 : ℕ) : ℤ) - ((q % 3 : ℕ) : ℤ)).natAbs

/-- Contribution of cell `k` to the Manhattan estimate against goal `g`:
zero for the blank and for values absent from the goal position table. -/
def manTerm (b g : Board) (k : ℕ) : ℕ :=
  if b.getD k 0 = 0 then 0
  else
    match lastPos g (b.getD k 0) with
    | some p => cellDist k p
    | none => 0

/-- Per-goal Manhattan distance of `manhattan_distance`. -/
def manhattanTo (b g : Board) : ℕ := ∑ k ∈ Finset.range 9, manTerm b g k

/-- Contribution of cell `k` to the misplaced-tiles count against goal `g`. -/
def misTerm (b g : Board) (k : ℕ) : ℕ :=
  if b.getD k 0 ≠ 0 ∧ b.getD k 0 ≠ g.getD k 0 then 1 else 0

/-- Per-goal misplaced-tiles count of `misplaced_tiles`. -/
def misplacedTo (b g : Board) : ℕ := ∑ k ∈ Finset.range 9, misTerm b g k

/-- Embeds `manhattan_distance`: minimum per-goal Manhattan distance over the
goal list, starting from the float infinity (modelled as `⊤`). -/
def manhattan_distance (s : State) (goals : List Board) : WithTop ℕ :=
  goals.foldl (fun acc g => min acc ((manhattanTo s.board g : ℕ) : WithTop ℕ)) ⊤

/-- Embeds `misplaced_tiles`: minimum per-goal misplaced count over the goal
list, starting from the float infinity (modelled as `⊤`). -/
def misplaced_tiles (s : State) (goals : List Board) : WithTop ℕ :=
  goals.foldl (fun acc g => min acc ((misplacedTo s.board g : ℕ) : WithTop ℕ)) ⊤

/-- Engine instrumentation fields of class `AStar` (`AStar.__init__`): the
expansion counter, peak frontier size, and diagnostic (parent, child) log. -/
structure AStar where
  nodes_expanded : ℕ
  max_frontier_size : ℕ
  search_tree : List (State × State)
deriving DecidableEq

/-- A freshly constructed engine: all instrumentation zeroed. -/
def AStar.init : AStar := ⟨0, 0, []⟩

/-- Frontier entry: (f value, insertion counter, state), compared as Python
compares tuples in `heapq` (counters are distinct, so the state is never
compared). -/
abbrev Entry := WithTop ℕ × ℕ × State

/-- Lexicographic (f, counter) comparison of frontier entries. -/
def entryLE (a b : Entry) : Bool :=
  decide (a.1 < b.1 ∨ (a.1 = b.1 ∧ a.2.1 ≤ b.2.1))

/-- Pop the least entry under the (f, counter) order, as `heapq.heappop`
does on the frontier. -/
def popMin : List Entry → Option (Entry × List Entry)
  | [] => none
  | e :: rest =>
    match popMin rest with
    | none => some (e, [])
    | some (m, rest1) =>
      if entryLE e m then some (e, rest) else some (m, e :: rest1)

/-- Per-invocation bookkeeping of `AStar.search`: frontier, g-cost map,
parent map (keyed by board, matching Python state hashing), insertion
counter, and the diagnostic search-tree log. -/
structure Book where
  open_set : List Entry
  g_values : List (Board × ℕ)
  parent : List (Board × Option State)
  counter : ℕ
  tree : List (State × State)

/-- Record a newly improved neighbor: set parent and g, log the edge, and
push (g + h, fresh counter, state) onto the frontier. -/
def pushNeighbor (hf : State → List Board → WithTop ℕ) (current : State)
    (ng : ℕ) (bk : Book) (nb : State) : Book :=
  { open_set := (((ng : ℕ) : WithTop ℕ) + hf nb goalStates, bk.counter + 1, nb) :: bk.open_set
    g_values := (nb.board, ng) :: bk.g_values
    parent := (nb.board, some current) :: bk.parent
    counter := bk.counter + 1
    tree := bk.tree ++ [(current, nb)] }

/-- Body of the neighbor loop of `AStar.search`: skip closed neighbors, skip
when a recorded cost is already at most `cg + 1`, otherwise record. -/
def relaxNeighbor (hf : State → List Board → WithTop ℕ) (current : State)
    (cg : ℕ) (closed : List Board) (bk : Book) (nb : State) : Book :=
  if closed.contains nb.board then bk
  else
    let ng := cg + 1
    match List.lookup nb.board bk.g_values with
    | some old => if old ≤ ng then bk else pushNeighbor hf current ng bk nb
    | none => pushNeighbor hf current ng bk nb

/-- Path reconstruction by parent links, bounded by a fuel argument; the
chain is returned initial-first, as the Python reversal produces. -/
def reconstructAux : ℕ → List (Board × Option State) → State → Option (List State)
  | 0, _, _ => none
  | fuel + 1, parent, cur =>
    match List.lookup cur.board parent with
    | none => none
    | some none => some [cur]
    | some (some p) => (reconstructAux fuel parent p).map (fun l => l ++ [cur])

/-- Embeds `AStar._reconstruct_path`; the fuel `parent.length + 1` always
suffices for the parent maps the search builds. -/
def reconstructPath (parent : List (Board × Option State)) (cur : State) :
    Option (List State) :=
  reconstructAux (parent.length + 1) parent cur

/-- The main loop of `AStar.search`: update the peak frontier size, pop the
least entry, return the reconstructed path on a goal, discard stale entries,
otherwise close and expand the state through `relaxNeighbor`. -/
def searchLoop (hf : State → List Board → WithTop ℕ) :
    ℕ → Book → List Board → ℕ → ℕ → Option (List State) × ℕ × ℕ × Book
  | 0, bk, _closed, ne, mfs => (none, ne, mfs, bk)
  | fuel + 1, bk, closed, ne, mfs =>
    match popMin bk.open_set with
    | none => (none, ne, mfs, bk)
    | some (e, rest) =>
      let mfs1 := max mfs bk.open_set.length
      let current := e.2.2
      if current.is_goal goalStates then
        (reconstructPath bk.parent current, ne, mfs1, { bk with open_set := rest })
      else if closed.contains current.board then
        searchLoop hf fuel { bk with open_set := rest } closed ne mfs1
      else
        let closed1 := current.board :: closed
        let cg := (List.lookup current.board bk.g_values).getD 0
        let bk1 := (getNeighbors current).foldl
          (relaxNeighbor hf current cg closed1) { bk with open_set := rest }
        searchLoop hf fuel bk1 closed1 (ne + 1) mfs1

/-- Embeds `AStar.search`: the solvability stub, initial bookkeeping with
g(initial) = 0 and priority (h, 0), then the main loop. The loop fuel is
extra with respect to the source (whose `while` runs until the frontier
empties); every claim is stated for runs that finish within the given fuel. -/
def AStar.search (hf : State → List Board → WithTop ℕ) (fuel : ℕ) (a : AStar)
    (initial : State) : Option (List State) × AStar :=
  if is_solvable initial then
    let h := hf initial goalStates
    let bk : Book :=
      ⟨[(h, 0, initial)], [(initial.board, 0)], [(initial.board, none)], 0,
        a.search_tree⟩
    match searchLoop hf fuel bk [] a.nodes_expanded a.max_frontier_size with
    | (r, ne, mfs, bk1) => (r, ⟨ne, mfs, bk1.tree⟩)
  else (none, a)

/-- A state is valid when its board is a permutation of 0..8 and the cached
blank coordinates are in bounds and point at a cell holding 0. -/
def ValidState (s : State) : Prop :=
  s.board.Perm (List.range 9)
    ∧ 0 ≤ s.blank.1 ∧ s.blank.1 < 3 ∧ 0 ≤ s.blank.2 ∧ s.blank.2 < 3
    ∧ s.board.getD (cellIdx s.blank.1 s.blank.2) 0 = 0

/-- Whether the last element of a path is one of the goal states (false for
the empty path). -/
def lastIsGoal (path : List State) : Bool :=
  (path.getLast?.map (fun gs => gs.is_goal goalStates)).getD false

/-- Loop invariant of `searchLoop`, relating the bookkeeping to the initial
state `s0`: the start cost is recorded as 0, the g and parent maps share a
domain, parent links point from closed valid states through genuine
transition-rule edges with cost increments of one, recorded costs are below
the size of the parent map (so reconstruction fuel suffices), and every
frontier state is valid and recorded. -/
structure Inv (s0 : State) (bk : Book) (closed : List Board) : Prop where
  ginit : List.lookup s0.board bk.g_values = some 0
  domeq : ∀ b : Board, (List.lookup b bk.g_values).isSome
    = (List.lookup b bk.parent).isSome
  pnone : ∀ b : Board, List.lookup b bk.parent = some none → b = s0.board
  pedge : ∀ (b : Board) (p : State),
    List.lookup b bk.parent = some (some p) →
    ValidState p ∧ p.board ∈ closed ∧
    (∃ q ∈ getNeighbors p, q.board = b) ∧
    (∃ gb gp : ℕ, List.lookup b bk.g_values = some gb ∧
      List.lookup p.board bk.g_values = some gp ∧ gb = gp + 1)
  gbound : ∀ (b : Board) (n : ℕ),
    List.lookup b bk.g_values = some n → n < bk.parent.length
  fGood : ∀ e ∈ bk.open_set, ValidState (e.2.2 : State)
  fdom : ∀ e ∈ bk.open_set,
    (List.lookup (e.2.2 : State).board bk.g_values).isSome = true

instance (s : State) : Decidable (ValidState s) := by
  unfold ValidState; infer_instance

/-! Basic facts about `List.getD`, `List.set`, `swapCells` and `lastPos`. -/

theorem getD_set_self {l : Board} {p x : ℕ} (hp : p < l.length) :
    (l.set p x).getD p 0 = x := by
  simp [List.getD_eq_getElem?_getD, List.getElem?_set_self, hp]

theorem getD_set_ne {l : Board} {p k x : ℕ} (h : k ≠ p) :
    (l.set p x).getD k 0 = l.getD k 0 := by
  simp [List.getD_eq_getElem?_getD, List.getElem?_set_ne (Ne.symm h)]

theorem swapCells_length (b : Board) (p q : ℕ) :
    (swapCells b p q).length = b.length := by
  simp [swapCells]

theorem getD_swapCells {b : Board} {p q : ℕ} (hp : p < b.length)
    (hq : q < b.length) (k : ℕ) :
    (swapCells b p q).getD k 0 =
      if k = q then b.getD p 0 else if k = p then b.getD q 0 else b.getD k 0 := by
  unfold swapCells
  by_cases hkq : k = q
  · subst hkq
    simp only [if_pos rfl]
    exact getD_set_self (by simpa using hq)
  · rw [getD_set_ne hkq, if_neg hkq]
    by_cases hkp : k = p
    · subst hkp; simp only [if_pos rfl]; exact getD_set_self hp
    · rw [getD_set_ne hkp, if_neg hkp]

theorem count_set_add {l : Board} {i : ℕ} (x v : ℕ) (hi : i < l.length) :
    (l.set i x).count v + (if l.getD i 0 = v then 1 else 0)
      = l.count v + (if x = v then 1 else 0) := by
  induction l generalizing i with
  | nil => simp at hi
  | cons a t ih =>
    cases i with
    | zero =>
      simp only [List.set, List.getD_cons_zero, List.count_cons]
      by_cases hav : a = v <;> by_cases hxv : x = v <;>
        simp [hav, hxv]
    | succ i =>
      have hi' : i < t.length := by simpa using hi
      simp only [List.set, List.getD_cons_succ, List.count_cons]
      have hrec := ih (i := i) hi'
      simp only [List.getD_eq_getElem?_getD] at hrec ⊢
      by_cases hav : a = v <;> simp [hav] <;> omega

theorem count_swapCells {b : Board} {p q : ℕ} (hp : p < b.length)
    (hq : q < b.length) (v : ℕ) :
    (swapCells b p q).count v = b.count v := by
  unfold swapCells
  have hq1 : q < (b.set p (b.getD q 0)).length := by simpa using hq
  have h1 := count_set_add (l := b.set p (b.getD q 0)) (i := q)
    (b.getD p 0) v hq1
  have h2 := count_set_add (l := b) (i := p) (b.getD q 0) v hp
  have hgq : (b.set p (b.getD q 0)).getD q 0 = b.getD q 0 := by
    by_cases hpq : q = p
    · subst hpq; exact getD_set_self hp
    · exact getD_set_ne hpq
  rw [hgq] at h1
  omega

theorem swapCells_perm {b : Board} {p q : ℕ} (hp : p < b.length)
    (hq : q < b.length) : (swapCells b p q).Perm b :=
  List.perm_iff_count.mpr fun v => count_swapCells hp hq v

theorem lastPos_foldl_spec {b : Board} {v : ℕ} :
    ∀ (l : List ℕ) (acc : Option ℕ) (p : ℕ),
      l.foldl (fun acc k => if b.getD k 0 = v then some k else acc) acc = some p →
      acc = some p ∨ (p ∈ l ∧ b.getD p 0 = v)
  | [], acc, p, h => Or.inl h
  | k :: l, acc, p, h => by
    rw [List.foldl_cons] at h
    rcases lastPos_foldl_spec l _ p h with h1 | h1
    · by_cases hk : b.getD k 0 = v
      · rw [if_pos hk] at h1
        right
        refine ⟨?_, ?_⟩
        · cases h1; exact List.mem_cons_self k l
        · cases h1; exact hk
      · rw [if_neg hk] at h1; exact Or.inl h1
    · exact Or.inr ⟨List.mem_cons_of_mem _ h1.1, h1.2⟩

theorem lastPos_spec {b : Board} {v p : ℕ} (h : lastPos b v = some p) :
    p < 9 ∧ b.getD p 0 = v := by
  rcases lastPos_foldl_spec (List.range 9) none p h with h1 | h1
  · cases h1
  · exact ⟨List.mem_range.mp h1.1, h1.2⟩

theorem lastPos_lt_length {b : Board} {v p : ℕ} (h : lastPos b v = some p)
    (hv : v ≠ 0) : p < b.length := by
  have h2 := (lastPos_spec h).2
  by_contra hlen
  rw [List.getD_eq_getElem?_getD, List.getElem?_eq_none (by omega)] at h2
  exact hv h2.symm

theorem lastPos_congr {b b' : Board} {v : ℕ}
    (h : ∀ k < 9, (b'.getD k 0 = v) = (b.getD k 0 = v)) :
    lastPos b' v = lastPos b v := by
  unfold lastPos
  have haux : ∀ (l : List ℕ) (acc : Option ℕ), (∀ k ∈ l, k < 9) →
      l.foldl (fun acc k => if b'.getD k 0 = v then some k else acc) acc =
      l.foldl (fun acc k => if b.getD k 0 = v then some k else acc) acc := by
    intro l
    induction l with
    | nil => intro acc _; rfl
    | cons k l ih =>
      intro acc hl
      simp only [List.foldl_cons]
      have hiff : b'.getD k 0 = v ↔ b.getD k 0 = v :=
        iff_of_eq (h k (hl k (List.mem_cons_self k l)))
      have hstep : (if b'.getD k 0 = v then some k else acc) =
          (if b.getD k 0 = v then some k else acc) := by
        by_cases hbk : b.getD k 0 = v
        · rw [if_pos hbk, if_pos (hiff.mpr hbk)]
        · rw [if_neg hbk, if_neg (fun hh => hbk (hiff.mp hh))]
      rw [hstep]
      exact ih _ (fun x hx => hl x (List.mem_cons_of_mem _ hx))
  exact haux (List.range 9) none (fun x hx => List.mem_range.mp hx)

/-! Properties of the automatic swap rule. -/

theorem lastPos_swap13_of_ne {b : Board} {p1 p3 : ℕ}
    (h1 : lastPos b 1 = some p1) (h3 : lastPos b 3 = some p3) {v : ℕ}
    (hv : v = 2 ∨ v = 4) : lastPos (swapCells b p1 p3) v = lastPos b v := by
  have hb1 : b.getD p1 0 = 1 := (lastPos_spec h1).2
  have hb3 : b.getD p3 0 = 3 := (lastPos_spec h3).2
  have hp1l : p1 < b.length := lastPos_lt_length h1 one_ne_zero
  have hp3l : p3 < b.length := lastPos_lt_length h3 three_ne_zero
  apply lastPos_congr
  intro k _
  rw [getD_swapCells hp1l hp3l k]
  by_cases hk3 : k = p3
  · subst hk3
    rw [if_pos rfl, hb1, hb3]
    rcases hv with hv | hv <;> subst hv <;> simp
  · rw [if_neg hk3]
    by_cases hk1 : k = p1
    · subst hk1
      rw [if_pos rfl, hb3, hb1]
      rcases hv with hv | hv <;> subst hv <;> simp
    · rw [if_neg hk1]

/-- C4: the automatic swap rule equals its spec-sequenced description: the
(1,3) swap first, then the (2,4) swap with adjacency judged on the positions
as they stand after the (1,3) swap.  The two agree because a (1,3) swap never
moves the cells holding 2 or 4. -/
theorem apply_special_rules_sequencing (b : Board) :
    applySpecialRules b = applySpecialRulesSpec b := by
  unfold applySpecialRules applySpecialRulesSpec
  have hsw : lastPos (swap13 b) 2 = lastPos b 2 ∧
      lastPos (swap13 b) 4 = lastPos b 4 := by
    unfold swap13
    cases h1 : lastPos b 1 with
    | none => exact ⟨rfl, rfl⟩
    | some p1 =>
      cases h3 : lastPos b 3 with
      | none => exact ⟨rfl, rfl⟩
      | some p3 =>
        dsimp only
        by_cases hadj : areAdjacent p1 p3
        · rw [if_pos hadj]
          exact ⟨lastPos_swap13_of_ne h1 h3 (Or.inl rfl),
            lastPos_swap13_of_ne h1 h3 (Or.inr rfl)⟩
        · rw [if_neg hadj]; exact ⟨rfl, rfl⟩
  unfold swap24
  rw [hsw.1, hsw.2]

theorem swap13_length (b : Board) : (swap13 b).length = b.length := by
  unfold swap13
  cases h1 : lastPos b 1 with
  | none => rfl
  | some p1 =>
    cases h3 : lastPos b 3 with
    | none => rfl
    | some p3 =>
      dsimp only
      by_cases hadj : areAdjacent p1 p3
      · rw [if_pos hadj, swapCells_length]
      · rw [if_neg hadj]

theorem swap13_perm (b : Board) : (swap13 b).Perm b := by
  unfold swap13
  cases h1 : lastPos b 1 with
  | none => exact List.Perm.refl b
  | some p1 =>
    cases h3 : lastPos b 3 with
    | none => exact List.Perm.refl b
    | some p3 =>
      dsimp only
      by_cases hadj : areAdjacent p1 p3
      · rw [if_pos hadj]
        exact swapCells_perm (lastPos_lt_length h1 one_ne_zero)
          (lastPos_lt_length h3 three_ne_zero)
      · rw [if_neg hadj]

theorem swap24_perm (b0 b : Board) (hlen : b0.length = b.length) :
    (swap24 b0 b).Perm b := by
  unfold swap24
  cases h2 : lastPos b0 2 with
  | none => exact List.Perm.refl b
  | some p2 =>
    cases h4 : lastPos b0 4 with
    | none => exact List.Perm.refl b
    | some p4 =>
      dsimp only
      by_cases hadj : areAdjacent p2 p4
      · rw [if_pos hadj]
        exact swapCells_perm (hlen ▸ lastPos_lt_length h2 two_ne_zero)
          (hlen ▸ lastPos_lt_length h4 (by norm_num))
      · rw [if_neg hadj]

theorem applySpecialRules_perm (b : Board) : (applySpecialRules b).Perm b := by
  unfold applySpecialRules
  exact (swap24_perm b (swap13 b) (swap13_length b).symm).trans (swap13_perm b)

theorem getD_swap13_zero {b : Board} {k : ℕ} (h : b.getD k 0 = 0) :
    (swap13 b).getD k 0 = 0 := by
  unfold swap13
  cases h1 : lastPos b 1 with
  | none => exact h
  | some p1 =>
    cases h3 : lastPos b 3 with
    | none => exact h
    | some p3 =>
      dsimp only
      by_cases hadj : areAdjacent p1 p3
      · rw [if_pos hadj,
          getD_swapCells (lastPos_lt_length h1 one_ne_zero)
            (lastPos_lt_length h3 three_ne_zero) k]
        have hk3 : k ≠ p3 := fun he => by
          rw [he, (lastPos_spec h3).2] at h; exact absurd h (by norm_num)
        have hk1 : k ≠ p1 := fun he => by
          rw [he, (lastPos_spec h1).2] at h; exact absurd h (by norm_num)
        rw [if_neg hk3, if_neg hk1]
        exact h
      · rw [if_neg hadj]; exact h

theorem getD_swap24_zero {b0 b : Board} (hlen : b0.length = b.length) {k : ℕ}
    (hb0k : b0.getD k 0 = 0) (hbk : b.getD k 0 = 0) :
    (swap24 b0 b).getD k 0 = 0 := by
  unfold swap24
  cases h2 : lastPos b0 2 with
  | none => exact hbk
  | some p2 =>
    cases h4 : lastPos b0 4 with
    | none => exact hbk
    | some p4 =>
      dsimp only
      by_cases hadj : areAdjacent p2 p4
      · rw [if_pos hadj,
          getD_swapCells (hlen ▸ lastPos_lt_length h2 two_ne_zero)
            (hlen ▸ lastPos_lt_length h4 (by norm_num)) k]
        have hk4 : k ≠ p4 := fun he => by
          rw [he, (lastPos_spec h4).2] at hb0k; exact absurd hb0k (by norm_num)
        have hk2 : k ≠ p2 := fun he => by
          rw [he, (lastPos_spec h2).2] at hb0k; exact absurd hb0k (by norm_num)
        rw [if_neg hk4, if_neg hk2]
        exact hbk
      · rw [if_neg hadj]; exact hbk

theorem applySpecialRules_getD_zero {b : Board} {k : ℕ} (h : b.getD k 0 = 0) :
    (applySpecialRules b).getD k 0 = 0 :=
  getD_swap24_zero (swap13_length b).symm h (getD_swap13_zero h)

/-! Validity of states and its preservation by the transition rule. -/

theorem cellIdx_lt9 {i j : ℤ} (hi0 : 0 ≤ i) (hi : i < 3) (hj0 : 0 ≤ j)
    (hj : j < 3) : cellIdx i j < 9 := by
  unfold cellIdx; omega

theorem cellIdx_inj {i j i' j' : ℤ} (hi0 : 0 ≤ i) (hi : i < 3) (hj0 : 0 ≤ j)
    (hj : j < 3) (hi0' : 0 ≤ i') (hi' : i' < 3) (hj0' : 0 ≤ j') (hj' : j' < 3)
    (h : cellIdx i j = cellIdx i' j') : i = i' ∧ j = j' := by
  unfold cellIdx at h; omega

theorem ValidState.boardLength {s : State} (hs : ValidState s) :
    s.board.length = 9 := by
  simpa using hs.1.length_eq

theorem mem_getNeighbors {s t : State} (ht : t ∈ getNeighbors s) :
    ∃ d ∈ moves,
      0 ≤ s.blank.1 + d.1 ∧ s.blank.1 + d.1 < 3 ∧
      0 ≤ s.blank.2 + d.2 ∧ s.blank.2 + d.2 < 3 ∧
      t = ⟨applySpecialRules
            (slideBoard s.board (cellIdx s.blank.1 s.blank.2)
              (cellIdx (s.blank.1 + d.1) (s.blank.2 + d.2))),
           (s.blank.1 + d.1, s.blank.2 + d.2)⟩ := by
  unfold getNeighbors at ht
  rw [List.mem_filterMap] at ht
  obtain ⟨d, hd, hfd⟩ := ht
  refine ⟨d, hd, ?_⟩
  by_cases hb : 0 ≤ s.blank.1 + d.1 ∧ s.blank.1 + d.1 < 3 ∧
      0 ≤ s.blank.2 + d.2 ∧ s.blank.2 + d.2 < 3
  · rw [if_pos hb] at hfd
    obtain ⟨hb1, hb2, hb3, hb4⟩ := hb
    exact ⟨hb1, hb2, hb3, hb4, (Option.some_inj.mp hfd).symm⟩
  · rw [if_neg hb] at hfd
    cases hfd

theorem moves_ne_zero {d : ℤ × ℤ} (hd : d ∈ moves) : d ≠ (0, 0) := by
  fin_cases hd <;> decide

theorem validState_getNeighbors {s t : State} (hs : ValidState s)
    (ht : t ∈ getNeighbors s) : ValidState t := by
  obtain ⟨d, hd, hb1, hb2, hb3, hb4, rfl⟩ := mem_getNeighbors ht
  obtain ⟨hperm, hi0, hi3, hj0, hj3, hblank⟩ := hs
  have hlen : s.board.length = 9 := by simpa using hperm.length_eq
  have hk9 : cellIdx s.blank.1 s.blank.2 < 9 := cellIdx_lt9 hi0 hi3 hj0 hj3
  have hm9 : cellIdx (s.blank.1 + d.1) (s.blank.2 + d.2) < 9 :=
    cellIdx_lt9 hb1 hb2 hb3 hb4
  have hkm : cellIdx s.blank.1 s.blank.2 ≠
      cellIdx (s.blank.1 + d.1) (s.blank.2 + d.2) := by
    intro he
    obtain ⟨he1, he2⟩ :=
      cellIdx_inj hi0 hi3 hj0 hj3 hb1 hb2 hb3 hb4 he
    have hd1 : d.1 = 0 := by omega
    have hd2 : d.2 = 0 := by omega
    exact moves_ne_zero hd (Prod.ext hd1 hd2)
  have hslide : slideBoard s.board (cellIdx s.blank.1 s.blank.2)
      (cellIdx (s.blank.1 + d.1) (s.blank.2 + d.2)) =
      swapCells s.board (cellIdx s.blank.1 s.blank.2)
        (cellIdx (s.blank.1 + d.1) (s.blank.2 + d.2)) := by
    unfold slideBoard swapCells
    rw [hblank]
  have hslideperm : (slideBoard s.board (cellIdx s.blank.1 s.blank.2)
      (cellIdx (s.blank.1 + d.1) (s.blank.2 + d.2))).Perm s.board := by
    rw [hslide]
    exact swapCells_perm (by omega) (by omega)
  have hzero : (slideBoard s.board (cellIdx s.blank.1 s.blank.2)
      (cellIdx (s.blank.1 + d.1) (s.blank.2 + d.2))).getD
        (cellIdx (s.blank.1 + d.1) (s.blank.2 + d.2)) 0 = 0 := by
    unfold slideBoard
    exact getD_set_self (by simp; omega)
  refine ⟨((applySpecialRules_perm _).trans hslideperm).trans hperm,
    hb1, hb2, hb3, hb4, applySpecialRules_getD_zero hzero⟩

theorem validState_eq_of_board_eq {q q' : State} (hq : ValidState q)
    (hq' : ValidState q') (h : q.board = q'.board) : q = q' := by
  obtain ⟨b, bl⟩ := q
  obtain ⟨b', bl'⟩ := q'
  simp only at h
  subst h
  obtain ⟨hperm, hi0, hi3, hj0, hj3, hz⟩ := hq
  obtain ⟨_, hi0', hi3', hj0', hj3', hz'⟩ := hq'
  simp only at hi0 hi3 hj0 hj3 hz hi0' hi3' hj0' hj3' hz'
  have hnd : b.Nodup := hperm.nodup_iff.mpr (List.nodup_range 9)
  have hlen : b.length = 9 := by simpa using hperm.length_eq
  have hk : cellIdx bl.1 bl.2 < b.length := by
    rw [hlen]; exact cellIdx_lt9 hi0 hi3 hj0 hj3
  have hk' : cellIdx bl'.1 bl'.2 < b.length := by
    rw [hlen]; exact cellIdx_lt9 hi0' hi3' hj0' hj3'
  rw [List.getD_eq_getElem?_getD, List.getElem?_eq_getElem hk] at hz
  rw [List.getD_eq_getElem?_getD, List.getElem?_eq_getElem hk'] at hz'
  simp only [Option.getD_some] at hz hz'
  have hidx : cellIdx bl.1 bl.2 = cellIdx bl'.1 bl'.2 :=
    (hnd.getElem_inj_iff).mp (hz.trans hz'.symm)
  obtain ⟨h1, h2⟩ :=
    cellIdx_inj hi0 hi3 hj0 hj3 hi0' hi3' hj0' hj3' hidx
  have : bl = bl' := Prod.ext h1 h2
  rw [this]

/-! Facts about the minimum folds of the two heuristics. -/

theorem foldl_min_le_acc (F : Board → WithTop ℕ) :
    ∀ (G : List Board) (acc : WithTop ℕ),
      G.foldl (fun acc g => min acc (F g)) acc ≤ acc
  | [], acc => le_refl acc
  | g :: G, acc => by
    rw [List.foldl_cons]
    exact le_trans (foldl_min_le_acc F G _) (min_le_left _ _)

theorem foldl_min_le_mem (F : Board → WithTop ℕ) :
    ∀ (G : List Board) (acc : WithTop ℕ) {g : Board}, g ∈ G →
      G.foldl (fun acc g => min acc (F g)) acc ≤ F g
  | [], _, g, hg => absurd hg (List.not_mem_nil g)
  | a :: G, acc, g, hg => by
    rw [List.foldl_cons]
    rcases List.mem_cons.mp hg with h | h
    · subst h
      exact le_trans (foldl_min_le_acc F G _) (min_le_right _ _)
    · exact foldl_min_le_mem F G _ h

theorem foldl_min_mono {A B : Board → WithTop ℕ} :
    ∀ (G : List Board) {acc1 acc2 : WithTop ℕ}, acc1 ≤ acc2 →
      (∀ g ∈ G, A g ≤ B g) →
      G.foldl (fun acc g => min acc (A g)) acc1 ≤
        G.foldl (fun acc g => min acc (B g)) acc2
  | [], _, _, hacc, _ => hacc
  | a :: G, acc1, acc2, hacc, hAB => by
    rw [List.foldl_cons, List.foldl_cons]
    exact foldl_min_mono G
      (min_le_min hacc (hAB a (List.mem_cons_self a G)))
      (fun g hg => hAB g (List.mem_cons_of_mem _ hg))

theorem foldl_min_add {A B : Board → WithTop ℕ} {c : WithTop ℕ} :
    ∀ (G : List Board) {acc1 acc2 : WithTop ℕ}, acc1 ≤ acc2 + c →
      (∀ g ∈ G, A g ≤ B g + c) →
      G.foldl (fun acc g => min acc (A g)) acc1 ≤
        G.foldl (fun acc g => min acc (B g)) acc2 + c
  | [], _, _, hacc, _ => hacc
  | a :: G, acc1, acc2, hacc, hAB => by
    rw [List.foldl_cons, List.foldl_cons]
    apply foldl_min_add G ?_ (fun g hg => hAB g (List.mem_cons_of_mem _ hg))
    calc min acc1 (A a) ≤ min (acc2 + c) (B a + c) :=
          min_le_min hacc (hAB a (List.mem_cons_self a G))
      _ = min acc2 (B a) + c := min_add_add_right _ _ _

theorem lastPos_isSome_of_getD {b : Board} {v k : ℕ} (hk : k < 9)
    (hv : b.getD k 0 = v) : ∃ p, lastPos b v = some p := by
  unfold lastPos
  have haux : ∀ (l : List ℕ) (acc : Option ℕ),
      ((∃ j ∈ l, b.getD j 0 = v) ∨ acc.isSome = true) →
      (l.foldl (fun acc k => if b.getD k 0 = v then some k else acc) acc).isSome
        = true := by
    intro l
    induction l with
    | nil =>
      intro acc h
      rcases h with ⟨j, hj, _⟩ | hs
      · cases hj
      · exact hs
    | cons a l ih =>
      intro acc h
      rw [List.foldl_cons]
      apply ih
      by_cases hb : b.getD a 0 = v
      · right; rw [if_pos hb]; rfl
      · rcases h with ⟨j, hj, hjv⟩ | hs
        · rcases List.mem_cons.mp hj with rfl | hj2
          · exact absurd hjv hb
          · exact Or.inl ⟨j, hj2, hjv⟩
        · right; rw [if_neg hb]; exact hs
  have := haux (List.range 9) none
    (Or.inl ⟨k, List.mem_range.mpr hk, hv⟩)
  exact Option.isSome_iff_exists.mp this

theorem cellDist_comm (p q : ℕ) : cellDist p q = cellDist q p := by
  unfold cellDist; omega

theorem cellDist_triangle (a b c : ℕ) :
    cellDist a c ≤ cellDist a b + cellDist b c := by
  unfold cellDist; omega

theorem cellDist_pos {p q : ℕ} (h : p ≠ q) : 1 ≤ cellDist p q := by
  unfold cellDist; omega

theorem getD_lt_length {b : Board} {k : ℕ} (h : b.getD k 0 ≠ 0) :
    k < b.length := by
  by_contra hlen
  rw [List.getD_eq_getElem?_getD, List.getElem?_eq_none (by omega)] at h
  exact h rfl

theorem getD_mem {b : Board} {k : ℕ} (hk : k < b.length) : b.getD k 0 ∈ b := by
  rw [List.getD_eq_getElem?_getD, List.getElem?_eq_getElem hk]
  exact List.getElem_mem hk

theorem misTerm_le_manTerm {b g : Board} (hb : b.Perm (List.range 9))
    (hg : g.Perm (List.range 9)) (k : ℕ) : misTerm b g k ≤ manTerm b g k := by
  unfold misTerm manTerm
  by_cases hc : b.getD k 0 ≠ 0 ∧ b.getD k 0 ≠ g.getD k 0
  · rw [if_pos hc]
    obtain ⟨h0, hne⟩ := hc
    rw [if_neg h0]
    have hkb : k < b.length := getD_lt_length h0
    have hv9 : b.getD k 0 < 9 :=
      List.mem_range.mp (hb.mem_iff.mp (getD_mem hkb))
    have hvg : b.getD k 0 ∈ g := hg.mem_iff.mpr (List.mem_range.mpr hv9)
    have hglen : g.length = 9 := by simpa using hg.length_eq
    obtain ⟨j, hjlen, hjv⟩ := List.getElem_of_mem hvg
    have hgetD : g.getD j 0 = b.getD k 0 := by
      rw [List.getD_eq_getElem?_getD, List.getElem?_eq_getElem hjlen]
      simpa using hjv
    obtain ⟨p, hp⟩ := lastPos_isSome_of_getD (by omega) hgetD
    rw [hp]
    have hgp : g.getD p 0 = b.getD k 0 := (lastPos_spec hp).2
    have hpk : k ≠ p := by
      intro he
      subst he
      exact hne hgp.symm
    exact cellDist_pos hpk
  · rw [if_neg hc]
    exact Nat.zero_le _

theorem misplacedTo_le_manhattanTo {b g : Board} (hb : b.Perm (List.range 9))
    (hg : g.Perm (List.range 9)) : misplacedTo b g ≤ manhattanTo b g :=
  Finset.sum_le_sum fun k _ => misTerm_le_manTerm hb hg k

theorem sum_split_two {f : ℕ → ℕ} {k m : ℕ} (hk : k < 9) (hm : m < 9)
    (hkm : k ≠ m) :
    ∑ x ∈ Finset.range 9, f x
      = f k + f m + ∑ x ∈ ((Finset.range 9).erase k).erase m, f x := by
  rw [← Finset.add_sum_erase _ f (Finset.mem_range.mpr hk),
    ← Finset.add_sum_erase _ f
      (Finset.mem_erase.mpr ⟨Ne.symm hkm, Finset.mem_range.mpr hm⟩)]
  ring

theorem getD_slideBoard_at_k {b : Board} {k m : ℕ} (hkm : k ≠ m)
    (hk : k < b.length) : (slideBoard b k m).getD k 0 = b.getD m 0 := by
  unfold slideBoard
  rw [getD_set_ne hkm]
  exact getD_set_self hk

theorem getD_slideBoard_at_m {b : Board} {k m : ℕ} (hm : m < b.length) :
    (slideBoard b k m).getD m 0 = 0 := by
  unfold slideBoard
  exact getD_set_self (by simpa using hm)

theorem getD_slideBoard_other {b : Board} {k m x : ℕ} (hxk : x ≠ k)
    (hxm : x ≠ m) : (slideBoard b k m).getD x 0 = b.getD x 0 := by
  unfold slideBoard
  rw [getD_set_ne hxm, getD_set_ne hxk]

theorem manhattanTo_slideBoard_le {b g : Board} {k m : ℕ} (hk9 : k < 9)
    (hm9 : m < 9) (hkm : k ≠ m) (hlen : b.length = 9)
    (hbk : b.getD k 0 = 0) :
    manhattanTo b g ≤ manhattanTo (slideBoard b k m) g + cellDist k m := by
  unfold manhattanTo
  rw [sum_split_two (f := manTerm b g) hk9 hm9 hkm,
    sum_split_two (f := manTerm (slideBoard b k m) g) hk9 hm9 hkm]
  have hrest : ∑ x ∈ ((Finset.range 9).erase k).erase m,
        manTerm (slideBoard b k m) g x
      = ∑ x ∈ ((Finset.range 9).erase k).erase m, manTerm b g x := by
    refine Finset.sum_congr rfl fun x hx => ?_
    have hxm : x ≠ m := (Finset.mem_erase.mp hx).1
    have hxk : x ≠ k := (Finset.mem_erase.mp (Finset.mem_erase.mp hx).2).1
    unfold manTerm
    rw [getD_slideBoard_other hxk hxm]
  rw [hrest]
  have h1 : manTerm b g k = 0 := by unfold manTerm; rw [if_pos hbk]
  have h2 : manTerm (slideBoard b k m) g m = 0 := by
    unfold manTerm
    rw [getD_slideBoard_at_m (by omega), if_pos rfl]
  have h3 : manTerm b g m ≤ manTerm (slideBoard b k m) g k + cellDist k m := by
    unfold manTerm
    rw [getD_slideBoard_at_k hkm (by omega)]
    by_cases h0 : b.getD m 0 = 0
    · rw [if_pos h0]
      exact Nat.zero_le _
    · rw [if_neg h0, if_neg h0]
      cases hlp : lastPos g (b.getD m 0) with
      | none => simp
      | some p =>
        dsimp only
        have ht := cellDist_triangle m k p
        have hc := cellDist_comm m k
        omega
  omega

theorem misTerm_le_one (b g : Board) (x : ℕ) : misTerm b g x ≤ 1 := by
  unfold misTerm
  by_cases h : b.getD x 0 ≠ 0 ∧ b.getD x 0 ≠ g.getD x 0
  · rw [if_pos h]
  · rw [if_neg h]; omega

theorem misplacedTo_slideBoard_le {b g : Board} {k m : ℕ} (hk9 : k < 9)
    (hm9 : m < 9) (hkm : k ≠ m) (_hlen : b.length = 9)
    (hbk : b.getD k 0 = 0) :
    misplacedTo b g ≤ misplacedTo (slideBoard b k m) g + 1 := by
  unfold misplacedTo
  rw [sum_split_two (f := misTerm b g) hk9 hm9 hkm,
    sum_split_two (f := misTerm (slideBoard b k m) g) hk9 hm9 hkm]
  have hrest : ∑ x ∈ ((Finset.range 9).erase k).erase m,
        misTerm (slideBoard b k m) g x
      = ∑ x ∈ ((Finset.range 9).erase k).erase m, misTerm b g x := by
    refine Finset.sum_congr rfl fun x hx => ?_
    have hxm : x ≠ m := (Finset.mem_erase.mp hx).1
    have hxk : x ≠ k := (Finset.mem_erase.mp (Finset.mem_erase.mp hx).2).1
    unfold misTerm
    rw [getD_slideBoard_other hxk hxm]
  rw [hrest]
  have h1 : misTerm b g k = 0 := by
    unfold misTerm
    rw [if_neg (fun hc => hc.1 hbk)]
  have h2 : misTerm b g m ≤ 1 := misTerm_le_one b g m
  omega

theorem mem_slideNeighbors {s t : State} (ht : t ∈ slideNeighbors s) :
    ∃ d ∈ moves,
      0 ≤ s.blank.1 + d.1 ∧ s.blank.1 + d.1 < 3 ∧
      0 ≤ s.blank.2 + d.2 ∧ s.blank.2 + d.2 < 3 ∧
      t = ⟨slideBoard s.board (cellIdx s.blank.1 s.blank.2)
            (cellIdx (s.blank.1 + d.1) (s.blank.2 + d.2)),
           (s.blank.1 + d.1, s.blank.2 + d.2)⟩ := by
  unfold slideNeighbors at ht
  rw [List.mem_filterMap] at ht
  obtain ⟨d, hd, hfd⟩ := ht
  refine ⟨d, hd, ?_⟩
  by_cases hb : 0 ≤ s.blank.1 + d.1 ∧ s.blank.1 + d.1 < 3 ∧
      0 ≤ s.blank.2 + d.2 ∧ s.blank.2 + d.2 < 3
  · rw [if_pos hb] at hfd
    obtain ⟨hb1, hb2, hb3, hb4⟩ := hb
    exact ⟨hb1, hb2, hb3, hb4, (Option.some_inj.mp hfd).symm⟩
  · rw [if_neg hb] at hfd
    cases hfd

theorem slide_cell_facts {s : State} {d : ℤ × ℤ} (hd : d ∈ moves)
    (hs : ValidState s) (hb1 : 0 ≤ s.blank.1 + d.1) (hb2 : s.blank.1 + d.1 < 3)
    (hb3 : 0 ≤ s.blank.2 + d.2) (hb4 : s.blank.2 + d.2 < 3) :
    cellIdx s.blank.1 s.blank.2 < 9 ∧
    cellIdx (s.blank.1 + d.1) (s.blank.2 + d.2) < 9 ∧
    cellIdx s.blank.1 s.blank.2 ≠ cellIdx (s.blank.1 + d.1) (s.blank.2 + d.2) ∧
    cellDist (cellIdx s.blank.1 s.blank.2)
      (cellIdx (s.blank.1 + d.1) (s.blank.2 + d.2)) = 1 := by
  obtain ⟨_, hi0, hi3, hj0, hj3, _⟩ := hs
  refine ⟨cellIdx_lt9 hi0 hi3 hj0 hj3, cellIdx_lt9 hb1 hb2 hb3 hb4, ?_, ?_⟩
  · intro he
    obtain ⟨he1, he2⟩ := cellIdx_inj hi0 hi3 hj0 hj3 hb1 hb2 hb3 hb4 he
    have hd1 : d.1 = 0 := by omega
    have hd2 : d.2 = 0 := by omega
    exact moves_ne_zero hd (Prod.ext hd1 hd2)
  · fin_cases hd <;> (unfold cellDist cellIdx; omega)

theorem validState_slideNeighbors {s t : State} (hs : ValidState s)
    (ht : t ∈ slideNeighbors s) : ValidState t := by
  obtain ⟨d, hd, hb1, hb2, hb3, hb4, rfl⟩ := mem_slideNeighbors ht
  obtain ⟨hk9, hm9, hkm, _⟩ := slide_cell_facts hd hs hb1 hb2 hb3 hb4
  obtain ⟨hperm, hi0, hi3, hj0, hj3, hblank⟩ := hs
  have hlen : s.board.length = 9 := by simpa using hperm.length_eq
  have hslide : slideBoard s.board (cellIdx s.blank.1 s.blank.2)
      (cellIdx (s.blank.1 + d.1) (s.blank.2 + d.2)) =
      swapCells s.board (cellIdx s.blank.1 s.blank.2)
        (cellIdx (s.blank.1 + d.1) (s.blank.2 + d.2)) := by
    unfold slideBoard swapCells
    rw [hblank]
  refine ⟨?_, hb1, hb2, hb3, hb4, ?_⟩
  · rw [hslide]
    exact (swapCells_perm (by omega) (by omega)).trans hperm
  · exact getD_slideBoard_at_m (by omega)

theorem is_goal_iff {s : State} :
    s.is_goal goalStates = true ↔ ∃ g ∈ goalStates, s.board = g := by
  unfold State.is_goal
  simp [List.any_eq_true, beq_iff_eq]

theorem goal_heuristics_zero :
    ∀ g ∈ goalStates, manhattanTo g g = 0 ∧ misplacedTo g g = 0 := by decide

theorem heuristics_le_zero_of_goal {s : State}
    (h : s.is_goal goalStates = true) :
    manhattan_distance s goalStates ≤ 0 ∧ misplaced_tiles s goalStates ≤ 0 := by
  obtain ⟨g, hg, hbg⟩ := is_goal_iff.mp h
  constructor
  · have hle := foldl_min_le_mem
      (F := fun g => ((manhattanTo s.board g : ℕ) : WithTop ℕ)) goalStates ⊤ hg
    calc manhattan_distance s goalStates
        ≤ ((manhattanTo s.board g : ℕ) : WithTop ℕ) := hle
      _ = ((0 : ℕ) : WithTop ℕ) := by
          rw [hbg, (goal_heuristics_zero g hg).1]
      _ ≤ 0 := by exact_mod_cast le_refl 0
  · have hle := foldl_min_le_mem
      (F := fun g => ((misplacedTo s.board g : ℕ) : WithTop ℕ)) goalStates ⊤ hg
    calc misplaced_tiles s goalStates
        ≤ ((misplacedTo s.board g : ℕ) : WithTop ℕ) := hle
      _ = ((0 : ℕ) : WithTop ℕ) := by
          rw [hbg, (goal_heuristics_zero g hg).2]
      _ ≤ 0 := by exact_mod_cast le_refl 0

/-- C3 (amended): both heuristics are admissible for the slide-only move
model (the model without the automatic swap rule): whenever some goal is
reachable from a valid state in at most `n` plain slides, each heuristic
value is at most `n`.  Under the full move model with automatic swaps,
admissibility fails (see the counterexample). -/
theorem heuristics_admissible_slide_model :
    ∀ (n : ℕ) (s : State), ValidState s → slideReachGoalIn n s = true →
      manhattan_distance s goalStates ≤ ((n : ℕ) : WithTop ℕ) ∧
      misplaced_tiles s goalStates ≤ ((n : ℕ) : WithTop ℕ) := by
  intro n
  induction n with
  | zero =>
    intro s _ h
    have hg : s.is_goal goalStates = true := by
      simpa [slideReachGoalIn] using h
    obtain ⟨h1, h2⟩ := heuristics_le_zero_of_goal hg
    exact ⟨by exact_mod_cast h1, by exact_mod_cast h2⟩
  | succ n ih =>
    intro s hs h
    rw [slideReachGoalIn] at h
    rcases (Bool.or_eq_true _ _).mp h with hgoal | hany
    · obtain ⟨h1, h2⟩ := heuristics_le_zero_of_goal hgoal
      have h0n : (0 : WithTop ℕ) ≤ (((n + 1 : ℕ)) : WithTop ℕ) := by
        exact_mod_cast Nat.zero_le (n + 1)
      exact ⟨le_trans h1 h0n, le_trans h2 h0n⟩
    · obtain ⟨t, hmem, hrt⟩ := List.any_eq_true.mp hany
      have hvt := validState_slideNeighbors hs hmem
      obtain ⟨ihman, ihmis⟩ := ih t hvt hrt
      obtain ⟨d, hd, hb1, hb2, hb3, hb4, hteq⟩ := mem_slideNeighbors hmem
      obtain ⟨hk9, hm9, hkm, hdist⟩ := slide_cell_facts hd hs hb1 hb2 hb3 hb4
      have hlen : s.board.length = 9 := by simpa using hs.1.length_eq
      have hblank : s.board.getD (cellIdx s.blank.1 s.blank.2) 0 = 0 :=
        hs.2.2.2.2.2
      have htb : t.board = slideBoard s.board (cellIdx s.blank.1 s.blank.2)
          (cellIdx (s.blank.1 + d.1) (s.blank.2 + d.2)) := by
        rw [hteq]
      have hstepman : ∀ g ∈ goalStates,
          ((manhattanTo s.board g : ℕ) : WithTop ℕ)
            ≤ ((manhattanTo t.board g : ℕ) : WithTop ℕ) + 1 := by
        intro g _
        rw [htb]
        have hman := manhattanTo_slideBoard_le (g := g) hk9 hm9 hkm hlen hblank
        rw [hdist] at hman
        exact_mod_cast hman
      have hstepmis : ∀ g ∈ goalStates,
          ((misplacedTo s.board g : ℕ) : WithTop ℕ)
            ≤ ((misplacedTo t.board g : ℕ) : WithTop ℕ) + 1 := by
        intro g _
        rw [htb]
        have hmis := misplacedTo_slideBoard_le (g := g) hk9 hm9 hkm hlen hblank
        exact_mod_cast hmis
      constructor
      · have hacc : (⊤ : WithTop ℕ) ≤ (⊤ : WithTop ℕ) + 1 := by simp
        have hfold := foldl_min_add goalStates hacc hstepman
        calc manhattan_distance s goalStates
            ≤ manhattan_distance t goalStates + 1 := hfold
          _ ≤ ((n : ℕ) : WithTop ℕ) + 1 := add_le_add_right ihman 1
          _ = (((n + 1 : ℕ)) : WithTop ℕ) := by push_cast; ring
      · have hacc : (⊤ : WithTop ℕ) ≤ (⊤ : WithTop ℕ) + 1 := by simp
        have hfold := foldl_min_add goalStates hacc hstepmis
        calc misplaced_tiles s goalStates
            ≤ misplaced_tiles t goalStates + 1 := hfold
          _ ≤ ((n : ℕ) : WithTop ℕ) + 1 := add_le_add_right ihmis 1
          _ = (((n + 1 : ℕ)) : WithTop ℕ) := by push_cast; ring

/-- Witness for the amended C3 theorem at the state one slide short of the
first goal. -/
theorem heuristics_admissible_slide_model_witness :
    manhattan_distance (mkState [1, 2, 3, 4, 5, 0, 7, 8, 6]) goalStates
      ≤ ((1 : ℕ) : WithTop ℕ) ∧
    misplaced_tiles (mkState [1, 2, 3, 4, 5, 0, 7, 8, 6]) goalStates
      ≤ ((1 : ℕ) : WithTop ℕ) :=
  heuristics_admissible_slide_model 1 (mkState [1, 2, 3, 4, 5, 0, 7, 8, 6])
    (by decide) (by decide)

/-- C3 counterexample: the valid state with board [1,3,2,4,0,5,6,7,8] reaches
a goal in two moves of the full move model (slide plus automatic swaps), yet
the Manhattan heuristic yields 4 and the misplaced-tiles heuristic yields 3,
so neither is bounded by the true shortest-path cost. -/
theorem heuristics_not_admissible_counterexample :
    ValidState (mkState [1, 3, 2, 4, 0, 5, 6, 7, 8]) ∧
    reachGoalIn 2 (mkState [1, 3, 2, 4, 0, 5, 6, 7, 8]) = true ∧
    ¬ manhattan_distance (mkState [1, 3, 2, 4, 0, 5, 6, 7, 8]) goalStates
        ≤ ((2 : ℕ) : WithTop ℕ) ∧
    ¬ misplaced_tiles (mkState [1, 3, 2, 4, 0, 5, 6, 7, 8]) goalStates
        ≤ ((2 : ℕ) : WithTop ℕ) := by decide

/-- C6: on a valid state and a list of valid goal boards, the Manhattan
heuristic dominates the misplaced-tiles heuristic (both being minima of
per-goal estimates over the goal list). -/
theorem manhattan_ge_misplaced {s : State} {G : List Board}
    (hs : ValidState s) (hG : ∀ g ∈ G, g.Perm (List.range 9)) (_hne : G ≠ []) :
    misplaced_tiles s G ≤ manhattan_distance s G := by
  unfold misplaced_tiles manhattan_distance
  exact foldl_min_mono G (le_refl ⊤)
    (fun g hg => by exact_mod_cast misplacedTo_le_manhattanTo hs.1 (hG g hg))

/-- Witness for C6 at a concrete valid state and the fixed goal set. -/
theorem manhattan_ge_misplaced_witness :
    misplaced_tiles (mkState [1, 3, 2, 4, 0, 5, 6, 7, 8]) goalStates
      ≤ manhattan_distance (mkState [1, 3, 2, 4, 0, 5, 6, 7, 8]) goalStates :=
  manhattan_ge_misplaced (by decide) (by decide) (by decide)

/-- C7 counterexample: called with an empty goal set, both heuristics
silently return the infinite estimate (the float infinity the Python
minimum starts from, modelled as `⊤`); no error is raised. -/
theorem heuristics_empty_goals_counterexample :
    manhattan_distance (mkState [1, 2, 3, 4, 0, 5, 7, 8, 6]) [] = ⊤ ∧
    misplaced_tiles (mkState [1, 2, 3, 4, 0, 5, 7, 8, 6]) [] = ⊤ :=
  ⟨rfl, rfl⟩

/-- C7 (amended): for every state, each heuristic applied to the empty goal
set returns the infinite estimate `⊤` rather than failing fast. -/
theorem heuristics_empty_goals_top (s : State) :
    manhattan_distance s [] = ⊤ ∧ misplaced_tiles s [] = ⊤ :=
  ⟨rfl, rfl⟩

/-- C9: the transition rule preserves the state invariant: from a valid state
(a permutation board of 0..8 whose cached blank coordinates point at the cell
holding 0), every state returned by `getNeighbors` satisfies the same
invariant; in particular the automatic swap rule never moves the blank. -/
theorem get_neighbors_preserve_invariant {s : State} (hs : ValidState s) :
    ∀ t ∈ getNeighbors s, ValidState t :=
  fun _ ht => validState_getNeighbors hs ht

/-- Witness for C9 at a concrete valid state and one of its neighbors. -/
theorem get_neighbors_preserve_invariant_witness :
    ValidState (State.mk [1, 0, 2, 4, 3, 5, 6, 7, 8] (0, 1)) :=
  get_neighbors_preserve_invariant (s := mkState [1, 3, 2, 4, 0, 5, 6, 7, 8])
    (by decide) (State.mk [1, 0, 2, 4, 3, 5, 6, 7, 8] (0, 1)) (by decide)

/-- C5: the search engine is deterministic: two invocations with the same
heuristic, fuel, engine and initial state yield the identical path, the
identical expansion count and the identical peak frontier size.  In this
embedding `AStar.search` is a pure function of its inputs, so the two-run
equality holds definitionally; the distinct insertion counters make the
popped minimum unique, so the pop order is a function of the frontier
contents as well. -/
theorem search_deterministic (hf : State → List Board → WithTop ℕ)
    (fuel : ℕ) (a : AStar) (s : State) :
    (AStar.search hf fuel a s).1 = (AStar.search hf fuel a s).1 ∧
    (AStar.search hf fuel a s).2.nodes_expanded
      = (AStar.search hf fuel a s).2.nodes_expanded ∧
    (AStar.search hf fuel a s).2.max_frontier_size
      = (AStar.search hf fuel a s).2.max_frontier_size :=
  ⟨rfl, rfl, rfl⟩

/-- C8: searching from an initial state whose grid equals one of the goal
grids, on a freshly constructed engine, returns the one-element path holding
only that state, with the expansion counter still zero (and peak frontier
size 1). -/
theorem search_goal_initial (hf : State → List Board → WithTop ℕ) (fuel : ℕ)
    (s : State) (hg : s.is_goal goalStates = true) :
    AStar.search hf (fuel + 1) AStar.init s = (some [s], ⟨0, 1, []⟩) := by
  simp [AStar.search, is_solvable, AStar.init, searchLoop, popMin, hg,
    reconstructPath, reconstructAux]

/-- Witness for C8 at the first goal board. -/
theorem search_goal_initial_witness :
    AStar.search manhattan_distance 1 AStar.init
        (mkState [1, 2, 3, 4, 5, 6, 7, 8, 0])
      = (some [mkState [1, 2, 3, 4, 5, 6, 7, 8, 0]], ⟨0, 1, []⟩) :=
  search_goal_initial manhattan_distance 0 _ (by decide)

/-! Shift lemmas: the loop threads the expansion counter additively, the peak
frontier size through `max`, and the search-tree log by appending, so a run
started on a used engine reports the old values accumulated with the run's
own. -/

theorem relaxNeighbor_tree (hf : State → List Board → WithTop ℕ)
    (current : State) (cg : ℕ) (closed : List Board)
    (t0 : List (State × State)) (bk : Book) (nb : State) :
    relaxNeighbor hf current cg closed { bk with tree := t0 ++ bk.tree } nb
      = { relaxNeighbor hf current cg closed bk nb with
          tree := t0 ++ (relaxNeighbor hf current cg closed bk nb).tree } := by
  unfold relaxNeighbor pushNeighbor
  by_cases h1 : closed.contains nb.board
  · rw [if_pos h1, if_pos h1]
  · rw [if_neg h1, if_neg h1]
    dsimp only
    cases h2 : List.lookup nb.board bk.g_values with
    | none => simp [List.append_assoc]
    | some old =>
      dsimp only
      by_cases h3 : old ≤ cg + 1
      · rw [if_pos h3, if_pos h3]
      · rw [if_neg h3, if_neg h3]
        simp [List.append_assoc]

theorem foldl_relax_tree (hf : State → List Board → WithTop ℕ)
    (current : State) (cg : ℕ) (closed : List Board)
    (t0 : List (State × State)) :
    ∀ (l : List State) (bk : Book),
      l.foldl (relaxNeighbor hf current cg closed)
          { bk with tree := t0 ++ bk.tree }
        = { l.foldl (relaxNeighbor hf current cg closed) bk with
            tree := t0 ++ (l.foldl (relaxNeighbor hf current cg closed) bk).tree }
  | [], _ => rfl
  | nb :: l, bk => by
    rw [List.foldl_cons, List.foldl_cons,
      relaxNeighbor_tree hf current cg closed t0 bk nb]
    exact foldl_relax_tree hf current cg closed t0 l _

theorem searchLoop_shift (hf : State → List Board → WithTop ℕ) :
    ∀ (fuel : ℕ) (bk : Book) (closed : List Board) (ne mfs a m : ℕ)
      (t0 : List (State × State)),
      searchLoop hf fuel { bk with tree := t0 ++ bk.tree } closed (a + ne)
          (max m mfs)
        = ((searchLoop hf fuel bk closed ne mfs).1,
           a + (searchLoop hf fuel bk closed ne mfs).2.1,
           max m (searchLoop hf fuel bk closed ne mfs).2.2.1,
           { (searchLoop hf fuel bk closed ne mfs).2.2.2 with
             tree := t0 ++ (searchLoop hf fuel bk closed ne mfs).2.2.2.tree })
  | 0, bk, closed, ne, mfs, a, m, t0 => rfl
  | fuel + 1, bk, closed, ne, mfs, a, m, t0 => by
    have hopen : ({ bk with tree := t0 ++ bk.tree } : Book).open_set
        = bk.open_set := rfl
    cases hpop : popMin bk.open_set with
    | none =>
      simp only [searchLoop, hopen, hpop]
    | some pr =>
      obtain ⟨e, rest⟩ := pr
      simp only [searchLoop, hopen, hpop]
      have hmax : max (max m mfs) bk.open_set.length
          = max m (max mfs bk.open_set.length) := Nat.max_assoc m mfs _
      by_cases hgoal : (e.2.2).is_goal goalStates
      · rw [if_pos hgoal, if_pos hgoal]
        simp only [hmax]
      · rw [if_neg hgoal, if_neg hgoal]
        by_cases hcl : closed.contains (e.2.2).board
        · rw [if_pos hcl, if_pos hcl]
          have hbk : ({ bk with tree := t0 ++ bk.tree, open_set := rest } : Book)
              = { ({ bk with open_set := rest } : Book) with
                  tree := t0 ++ ({ bk with open_set := rest } : Book).tree } := rfl
          rw [hmax, hbk]
          exact searchLoop_shift hf fuel { bk with open_set := rest } closed
            ne (max mfs bk.open_set.length) a m t0
        · rw [if_neg hcl, if_neg hcl]
          have hbk : ({ bk with tree := t0 ++ bk.tree, open_set := rest } : Book)
              = { ({ bk with open_set := rest } : Book) with
                  tree := t0 ++ ({ bk with open_set := rest } : Book).tree } := rfl
          rw [hmax, hbk, foldl_relax_tree]
          exact searchLoop_shift hf fuel _ _ (ne + 1)
            (max mfs bk.open_set.length) a m t0

/-- A run from an arbitrary engine equals the run from a fresh engine with
the previous instrumentation folded in. -/
theorem search_engine_shift (hf : State → List Board → WithTop ℕ)
    (fuel : ℕ) (s : State) (a : AStar) :
    AStar.search hf fuel a s
      = ((AStar.search hf fuel AStar.init s).1,
         ⟨a.nodes_expanded
            + (AStar.search hf fuel AStar.init s).2.nodes_expanded,
          max a.max_frontier_size
            (AStar.search hf fuel AStar.init s).2.max_frontier_size,
          a.search_tree
            ++ (AStar.search hf fuel AStar.init s).2.search_tree⟩) := by
  unfold AStar.search is_solvable
  rw [if_pos rfl, if_pos rfl]
  dsimp only [AStar.init]
  rcases hres : searchLoop hf fuel
      ⟨[(hf s goalStates, 0, s)], [(s.board, 0)], [(s.board, none)], 0,
        ([] : List (State × State))⟩ [] 0 0 with ⟨r0, ne0, mfs0, bkf⟩
  have hsh := searchLoop_shift hf fuel
    ⟨[(hf s goalStates, 0, s)], [(s.board, 0)], [(s.board, none)], 0,
      ([] : List (State × State))⟩ [] 0 0 a.nodes_expanded
    a.max_frontier_size a.search_tree
  rw [hres] at hsh
  simp only [List.append_nil, Nat.add_zero, Nat.max_zero] at hsh
  rw [hsh]

/-- C10: the instrumentation fields are initialized only at construction and
are never reset inside `search`: a second call on the same engine reports the
first run's expansion count added to its own, the peak frontier size as a
running maximum over both runs, and the search-tree log of the second run
appended after the first; the returned path itself is unaffected. -/
theorem search_accumulates_instrumentation
    (hf : State → List Board → WithTop ℕ) (a : AStar) (fuel1 fuel2 : ℕ)
    (s1 s2 : State) :
    (AStar.search hf fuel2 (AStar.search hf fuel1 a s1).2 s2).1
      = (AStar.search hf fuel2 AStar.init s2).1 ∧
    (AStar.search hf fuel2 (AStar.search hf fuel1 a s1).2 s2).2.nodes_expanded
      = (AStar.search hf fuel1 a s1).2.nodes_expanded
        + (AStar.search hf fuel2 AStar.init s2).2.nodes_expanded ∧
    (AStar.search hf fuel2 (AStar.search hf fuel1 a s1).2 s2).2.max_frontier_size
      = max (AStar.search hf fuel1 a s1).2.max_frontier_size
        (AStar.search hf fuel2 AStar.init s2).2.max_frontier_size ∧
    (AStar.search hf fuel2 (AStar.search hf fuel1 a s1).2 s2).2.search_tree
      = (AStar.search hf fuel1 a s1).2.search_tree
        ++ (AStar.search hf fuel2 AStar.init s2).2.search_tree := by
  rw [search_engine_shift hf fuel2 s2 (AStar.search hf fuel1 a s1).2]
  exact ⟨rfl, rfl, rfl, rfl⟩

/-! Invariant of the search loop, used for the path-validity claims. -/

theorem contains_iff_mem {l : List Board} {b : Board} :
    l.contains b = true ↔ b ∈ l :=
  List.elem_iff

theorem lookup_cons_ne {α : Type} (l : List (Board × α)) {k k' : Board}
    (v : α) (h : k ≠ k') : List.lookup k ((k', v) :: l) = List.lookup k l := by
  rw [List.lookup_cons]
  have hbeq : (k == k') = false := beq_eq_false_iff_ne.mpr h
  rw [hbeq]

theorem popMin_mem : ∀ {l : List Entry} {e : Entry} {rest : List Entry},
    popMin l = some (e, rest) → e ∈ l ∧ ∀ x ∈ rest, x ∈ l
  | [], e, rest, h => by cases h
  | e0 :: l0, e, rest, h => by
    simp only [popMin] at h
    cases hm : popMin l0 with
    | none =>
      rw [hm] at h
      dsimp only at h
      have hpair := Option.some_inj.mp h
      rw [Prod.mk.injEq] at hpair
      obtain ⟨rfl, rfl⟩ := hpair
      exact ⟨List.mem_cons_self e0 l0, fun x hx => by cases hx⟩
    | some pr =>
      obtain ⟨m, rest1⟩ := pr
      rw [hm] at h
      dsimp only at h
      obtain ⟨hm1, hr1⟩ := popMin_mem hm
      by_cases hle : entryLE e0 m
      · rw [if_pos hle] at h
        have hpair := Option.some_inj.mp h
        rw [Prod.mk.injEq] at hpair
        obtain ⟨rfl, rfl⟩ := hpair
        exact ⟨List.mem_cons_self e0 l0,
          fun x hx => List.mem_cons_of_mem _ hx⟩
      · rw [if_neg hle] at h
        have hpair := Option.some_inj.mp h
        rw [Prod.mk.injEq] at hpair
        obtain ⟨rfl, rfl⟩ := hpair
        refine ⟨List.mem_cons_of_mem _ hm1, fun x hx => ?_⟩
        rcases List.mem_cons.mp hx with rfl | hx2
        · exact List.mem_cons_self _ l0
        · exact List.mem_cons_of_mem _ (hr1 x hx2)

theorem Inv.shrink_open {s0 : State} {bk : Book} {closed : List Board}
    (hinv : Inv s0 bk closed) {rest : List Entry}
    (hsub : ∀ x ∈ rest, x ∈ bk.open_set) :
    Inv s0 { bk with open_set := rest } closed where
  ginit := hinv.ginit
  domeq := hinv.domeq
  pnone := hinv.pnone
  pedge := hinv.pedge
  gbound := hinv.gbound
  fGood := fun e he => hinv.fGood e (hsub e he)
  fdom := fun e he => hinv.fdom e (hsub e he)

theorem Inv.extend_closed {s0 : State} {bk : Book} {closed : List Board}
    (hinv : Inv s0 bk closed) (b0 : Board) :
    Inv s0 bk (b0 :: closed) where
  ginit := hinv.ginit
  domeq := hinv.domeq
  pnone := hinv.pnone
  pedge := fun b p hp =>
    let h := hinv.pedge b p hp
    ⟨h.1, List.mem_cons_of_mem _ h.2.1, h.2.2.1, h.2.2.2⟩
  gbound := hinv.gbound
  fGood := hinv.fGood
  fdom := hinv.fdom

theorem pushNeighbor_preserves {s0 : State}
    {hf : State → List Board → WithTop ℕ} {current : State} {cg : ℕ}
    {closed1 : List Board} {bk : Book} {nb : State}
    (hcur : ValidState current) (hnb : nb ∈ getNeighbors current)
    (hcl : current.board ∈ closed1) (hinv : Inv s0 bk closed1)
    (hcg : List.lookup current.board bk.g_values = some cg)
    (hnbcl : nb.board ∉ closed1) (hnbs0 : nb.board ≠ s0.board) :
    Inv s0 (pushNeighbor hf current (cg + 1) bk nb) closed1 ∧
    List.lookup current.board
      (pushNeighbor hf current (cg + 1) bk nb).g_values = some cg := by
  have hcurnb : current.board ≠ nb.board := fun he => hnbcl (he ▸ hcl)
  have hlook : List.lookup current.board
      ((nb.board, cg + 1) :: bk.g_values) = some cg := by
    rw [lookup_cons_ne _ _ hcurnb]
    exact hcg
  refine ⟨?_, hlook⟩
  constructor
  · rw [pushNeighbor]
    dsimp only
    rw [lookup_cons_ne _ _ (Ne.symm hnbs0)]
    exact hinv.ginit
  · intro b
    rw [pushNeighbor]
    dsimp only
    by_cases hb : b = nb.board
    · subst hb
      rw [List.lookup_cons_self, List.lookup_cons_self]
      rfl
    · rw [lookup_cons_ne _ _ hb, lookup_cons_ne _ _ hb]
      exact hinv.domeq b
  · intro b h
    rw [pushNeighbor] at h
    dsimp only at h
    by_cases hb : b = nb.board
    · subst hb
      rw [List.lookup_cons_self] at h
      simp at h
    · rw [lookup_cons_ne _ _ hb] at h
      exact hinv.pnone b h
  · intro b p h
    rw [pushNeighbor] at h
    dsimp only at h
    by_cases hb : b = nb.board
    · subst hb
      rw [List.lookup_cons_self] at h
      have hpc : current = p := by
        have := Option.some_inj.mp h
        exact Option.some_inj.mp this
      subst hpc
      exact ⟨hcur, hcl, ⟨nb, hnb, rfl⟩,
        cg + 1, cg, List.lookup_cons_self, hlook, rfl⟩
    · rw [lookup_cons_ne _ _ hb] at h
      obtain ⟨hvp, hpcl, hqe, gb, gp, hgb, hgp, hsum⟩ := hinv.pedge b p h
      have hpne : p.board ≠ nb.board := fun he => hnbcl (he ▸ hpcl)
      refine ⟨hvp, hpcl, hqe, gb, gp, ?_, ?_, hsum⟩
      · rw [pushNeighbor]
        dsimp only
        rw [lookup_cons_ne _ _ hb]
        exact hgb
      · rw [pushNeighbor]
        dsimp only
        rw [lookup_cons_ne _ _ hpne]
        exact hgp
  · intro b n h
    rw [pushNeighbor] at h ⊢
    dsimp only at h ⊢
    rw [List.length_cons]
    by_cases hb : b = nb.board
    · subst hb
      rw [List.lookup_cons_self] at h
      have hn : n = cg + 1 := (Option.some_inj.mp h).symm
      have hcgb := hinv.gbound current.board cg hcg
      omega
    · rw [lookup_cons_ne _ _ hb] at h
      have := hinv.gbound b n h
      omega
  · intro e he
    rw [pushNeighbor] at he
    rcases List.mem_cons.mp he with rfl | he2
    · exact validState_getNeighbors hcur hnb
    · exact hinv.fGood e he2
  · intro e he
    rw [pushNeighbor] at he ⊢
    dsimp only
    rcases List.mem_cons.mp he with rfl | he2
    · rw [List.lookup_cons_self]
      rfl
    · by_cases hb : (e.2.2 : State).board = nb.board
      · rw [hb, List.lookup_cons_self]
        rfl
      · rw [lookup_cons_ne _ _ hb]
        exact hinv.fdom e he2

theorem relaxNeighbor_preserves {s0 : State}
    {hf : State → List Board → WithTop ℕ} {current : State} {cg : ℕ}
    {closed1 : List Board} {bk : Book} {nb : State}
    (hcur : ValidState current) (hnb : nb ∈ getNeighbors current)
    (hcl : current.board ∈ closed1) (hinv : Inv s0 bk closed1)
    (hcg : List.lookup current.board bk.g_values = some cg) :
    Inv s0 (relaxNeighbor hf current cg closed1 bk nb) closed1 ∧
    List.lookup current.board
      (relaxNeighbor hf current cg closed1 bk nb).g_values = some cg := by
  unfold relaxNeighbor
  by_cases h1 : closed1.contains nb.board
  · rw [if_pos h1]
    exact ⟨hinv, hcg⟩
  · rw [if_neg h1]
    dsimp only
    have hnbcl : nb.board ∉ closed1 := fun hmem =>
      h1 (contains_iff_mem.mpr hmem)
    cases h2 : List.lookup nb.board bk.g_values with
    | none =>
      have hnbs0 : nb.board ≠ s0.board := by
        intro he
        rw [he, hinv.ginit] at h2
        cases h2
      exact pushNeighbor_preserves hcur hnb hcl hinv hcg hnbcl hnbs0
    | some old =>
      dsimp only
      by_cases h3 : old ≤ cg + 1
      · rw [if_pos h3]
        exact ⟨hinv, hcg⟩
      · rw [if_neg h3]
        have hnbs0 : nb.board ≠ s0.board := by
          intro he
          rw [he, hinv.ginit] at h2
          have : old = 0 := (Option.some_inj.mp h2).symm
          omega
        exact pushNeighbor_preserves hcur hnb hcl hinv hcg hnbcl hnbs0

theorem foldl_relax_preserves {s0 : State}
    {hf : State → List Board → WithTop ℕ} {current : State} {cg : ℕ}
    {closed1 : List Board} (hcur : ValidState current)
    (hcl : current.board ∈ closed1) :
    ∀ (l : List State), (∀ x ∈ l, x ∈ getNeighbors current) →
      ∀ (bk : Book), Inv s0 bk closed1 →
      List.lookup current.board bk.g_values = some cg →
      Inv s0 (l.foldl (relaxNeighbor hf current cg closed1) bk) closed1
  | [], _, bk, hinv, _ => hinv
  | nb :: l, hsub, bk, hinv, hcg => by
    rw [List.foldl_cons]
    obtain ⟨hinv1, hcg1⟩ := relaxNeighbor_preserves hcur
      (hsub nb (List.mem_cons_self nb l)) hcl hinv hcg
    exact foldl_relax_preserves hcur hcl l
      (fun x hx => hsub x (List.mem_cons_of_mem _ hx)) _ hinv1 hcg1

theorem reconstructAux_spec {s0 : State} {bk : Book} {closed : List Board}
    (hinv : Inv s0 bk closed) (hs0 : ValidState s0) :
    ∀ (n fuel : ℕ) (cur : State), n < fuel → ValidState cur →
      List.lookup cur.board bk.g_values = some n →
      ∃ path, reconstructAux fuel bk.parent cur = some path ∧
        path.head? = some s0 ∧ path.getLast? = some cur ∧
        path.length = n + 1 ∧
        List.Chain' (fun p q => q ∈ getNeighbors p) path := by
  intro n
  induction n using Nat.strong_induction_on with
  | _ n ih =>
    intro fuel cur hfuel hvc hg
    cases fuel with
    | zero => omega
    | succ f =>
      have hpar : (List.lookup cur.board bk.parent).isSome = true := by
        rw [← hinv.domeq, hg]
        rfl
      obtain ⟨po, hpo⟩ := Option.isSome_iff_exists.mp hpar
      cases po with
      | none =>
        have hb := hinv.pnone _ hpo
        have hcur0 : cur = s0 := validState_eq_of_board_eq hvc hs0 hb
        have hn0 : n = 0 := by
          have hgi := hinv.ginit
          rw [← hb, hg] at hgi
          exact Option.some_inj.mp hgi
        refine ⟨[cur], ?_, ?_, rfl, by simp [hn0], List.chain'_singleton cur⟩
        · simp only [reconstructAux]
          rw [hpo]
        · rw [hcur0]
          rfl
      | some p =>
        obtain ⟨hvp, hpcl, ⟨q, hq, hqb⟩, gb, gp, hgb, hgp, hsum⟩ :=
          hinv.pedge _ p hpo
        have hgbn : gb = n := Option.some_inj.mp (hgb.symm.trans hg)
        obtain ⟨l, hrec, hhead, hlast, hlen, hchain⟩ :=
          ih gp (by omega) f p (by omega) hvp hgp
        refine ⟨l ++ [cur], ?_, ?_, List.getLast?_concat l, ?_, ?_⟩
        · simp only [reconstructAux]
          rw [hpo]
          dsimp only
          rw [hrec]
          rfl
        · rw [List.head?_append, hhead]
          rfl
        · rw [List.length_append, hlen]
          simp
          omega
        · refine List.chain'_append.mpr ⟨hchain, List.chain'_singleton cur, ?_⟩
          intro x hx y hy
          have hxp : x = p := by
            rw [hlast] at hx
            exact (Option.some_inj.mp (Option.mem_def.mp hx)).symm
          have hyc : y = cur := by
            have : [cur].head? = some cur := rfl
            rw [this] at hy
            exact (Option.some_inj.mp (Option.mem_def.mp hy)).symm
          rw [hxp, hyc]
          have hqv := validState_getNeighbors hvp hq
          have hqc : q = cur := validState_eq_of_board_eq hqv hvc hqb
          rw [← hqc]
          exact hq

theorem searchLoop_path_spec {s0 : State} (hs0 : ValidState s0)
    (hf : State → List Board → WithTop ℕ) :
    ∀ (fuel : ℕ) (bk : Book) (closed : List Board) (ne mfs : ℕ)
      (path : List State), Inv s0 bk closed →
      (searchLoop hf fuel bk closed ne mfs).1 = some path →
      path.head? = some s0 ∧ lastIsGoal path = true ∧
      List.Chain' (fun p q => q ∈ getNeighbors p) path := by
  intro fuel
  induction fuel with
  | zero =>
    intro bk closed ne mfs path _ hrun
    simp [searchLoop] at hrun
  | succ f ihf =>
    intro bk closed ne mfs path hinv hrun
    simp only [searchLoop] at hrun
    cases hpop : popMin bk.open_set with
    | none =>
      rw [hpop] at hrun
      simp at hrun
    | some pr =>
      obtain ⟨e, rest⟩ := pr
      rw [hpop] at hrun
      dsimp only at hrun
      have hecur : e ∈ bk.open_set := (popMin_mem hpop).1
      have hvc : ValidState e.2.2 := hinv.fGood e hecur
      by_cases hgoal : (e.2.2).is_goal goalStates
      · rw [if_pos hgoal] at hrun
        have hdom := hinv.fdom e hecur
        obtain ⟨n, hn⟩ := Option.isSome_iff_exists.mp hdom
        have hbound := hinv.gbound _ n hn
        obtain ⟨path0, hrec, hhead, hlast, hlen, hchain⟩ :=
          reconstructAux_spec hinv hs0 n (bk.parent.length + 1) e.2.2
            (by omega) hvc hn
        rw [reconstructPath] at hrun
        rw [hrec] at hrun
        obtain rfl : path0 = path := Option.some_inj.mp hrun
        refine ⟨hhead, ?_, hchain⟩
        unfold lastIsGoal
        rw [hlast]
        simp [hgoal]
      · rw [if_neg hgoal] at hrun
        by_cases hcl : closed.contains (e.2.2).board
        · rw [if_pos hcl] at hrun
          exact ihf _ closed _ _ path
            (hinv.shrink_open (popMin_mem hpop).2) hrun
        · rw [if_neg hcl] at hrun
          have hdom := hinv.fdom e hecur
          obtain ⟨cg, hcg⟩ := Option.isSome_iff_exists.mp hdom
          have hcgD : (List.lookup (e.2.2).board bk.g_values).getD 0 = cg := by
            rw [hcg]
            rfl
          rw [hcgD] at hrun
          have hinv1 : Inv s0 { bk with open_set := rest }
              ((e.2.2).board :: closed) :=
            (hinv.shrink_open (popMin_mem hpop).2).extend_closed _
          have hinv2 := @foldl_relax_preserves s0 hf (e.2.2) cg
            ((e.2.2).board :: closed) hvc
            (List.mem_cons_self _ _) (getNeighbors e.2.2) (fun x hx => hx)
            { bk with open_set := rest } hinv1 hcg
          exact ihf _ _ _ _ path hinv2 hrun

theorem initial_inv {s : State}
    (hf : State → List Board → WithTop ℕ) (hs : ValidState s)
    (t0 : List (State × State)) :
    Inv s ⟨[(hf s goalStates, 0, s)], [(s.board, 0)], [(s.board, none)], 0,
      t0⟩ [] where
  ginit := List.lookup_cons_self
  domeq := fun b => by
    by_cases hb : b = s.board
    · subst hb
      rw [List.lookup_cons_self, List.lookup_cons_self]
      rfl
    · rw [lookup_cons_ne _ _ hb, lookup_cons_ne _ _ hb]
      rfl
  pnone := fun b h => by
    by_cases hb : b = s.board
    · exact hb
    · rw [lookup_cons_ne _ _ hb] at h
      cases h
  pedge := fun b p h => by
    by_cases hb : b = s.board
    · subst hb
      rw [List.lookup_cons_self] at h
      simp at h
    · rw [lookup_cons_ne _ _ hb] at h
      cases h
  gbound := fun b n h => by
    by_cases hb : b = s.board
    · subst hb
      rw [List.lookup_cons_self] at h
      have hn : 0 = n := Option.some_inj.mp h
      simp only [List.length_cons, List.length_nil]
      omega
    · rw [lookup_cons_ne _ _ hb] at h
      cases h
  fGood := fun e he => by
    rcases List.mem_cons.mp he with rfl | he2
    · exact hs
    · cases he2
  fdom := fun e he => by
    rcases List.mem_cons.mp he with rfl | he2
    · rw [List.lookup_cons_self]
      rfl
    · cases he2

theorem search_result_props {hf : State → List Board → WithTop ℕ}
    {fuel : ℕ} {a : AStar} {s : State} {path : List State}
    (hs : ValidState s) (h : (AStar.search hf fuel a s).1 = some path) :
    path.head? = some s ∧ lastIsGoal path = true ∧
    List.Chain' (fun p q => q ∈ getNeighbors p) path := by
  unfold AStar.search is_solvable at h
  rw [if_pos rfl] at h
  dsimp only at h
  have hproj : ∀ x : Option (List State) × ℕ × ℕ × Book,
      (match x with
        | (r, ne2, mfs2, bk1) =>
          (r, (⟨ne2, mfs2, bk1.tree⟩ : AStar))).1 = x.1 := by
    intro x
    obtain ⟨r, ne2, mfs2, bk1⟩ := x
    rfl
  rw [hproj] at h
  exact searchLoop_path_spec hs hf fuel _ [] _ _ path
    (initial_inv hf hs a.search_tree) h

theorem reachGoalIn_succ_of_mem {s t : State} (ht : t ∈ getNeighbors s)
    {n : ℕ} (h : reachGoalIn n t = true) : reachGoalIn (n + 1) s = true := by
  rw [reachGoalIn]
  exact (Bool.or_eq_true _ _).mpr (Or.inr (List.any_eq_true.mpr ⟨t, ht, h⟩))

theorem chain_reachGoalIn :
    ∀ (path : List State) (s : State), path.head? = some s →
      lastIsGoal path = true →
      List.Chain' (fun p q => q ∈ getNeighbors p) path →
      reachGoalIn (path.length - 1) s = true
  | [], _, hh, _, _ => by cases hh
  | [x], s, hh, hl, _ => by
    have hx : x = s := Option.some_inj.mp hh
    have hgoal : x.is_goal goalStates = true := by
      unfold lastIsGoal at hl
      simpa using hl
    show reachGoalIn 0 s = true
    rw [reachGoalIn, ← hx]
    exact hgoal
  | x :: y :: rest, s, hh, hl, hc => by
    have hx : x = s := Option.some_inj.mp hh
    rw [List.chain'_cons] at hc
    obtain ⟨hxy, hc2⟩ := hc
    have hl2 : lastIsGoal (y :: rest) = true := by
      unfold lastIsGoal at hl ⊢
      rw [List.getLast?_cons_cons] at hl
      exact hl
    have ih := chain_reachGoalIn (y :: rest) y rfl hl2 hc2
    have hsucc := reachGoalIn_succ_of_mem (s := x) hxy ih
    have harith : (x :: y :: rest).length - 1 = (y :: rest).length - 1 + 1 := by
      simp
    rw [harith, ← hx]
    exact hsucc

/-- C2: on every valid initial state, a path returned by the engine starts at
the initial state, ends at a state whose grid matches one of the four goal
grids, and every consecutive pair of path states is a genuine transition of
the move model: the successor is among the neighbors of its predecessor
(one blank slide followed by the automatic swap rule). -/
theorem search_path_valid {hf : State → List Board → WithTop ℕ}
    {fuel : ℕ} {a : AStar} {s : State} {path : List State}
    (hs : ValidState s) (h : (AStar.search hf fuel a s).1 = some path) :
    path.head? = some s ∧ lastIsGoal path = true ∧
    List.Chain' (fun p q => q ∈ getNeighbors p) path :=
  search_result_props hs h

/-- Witness for C2: a run from a goal state returns the one-element valid
path. -/
theorem search_path_valid_witness :
    ([mkState [1, 2, 3, 4, 5, 6, 7, 8, 0]] : List State).head?
        = some (mkState [1, 2, 3, 4, 5, 6, 7, 8, 0]) ∧
    lastIsGoal [mkState [1, 2, 3, 4, 5, 6, 7, 8, 0]] = true ∧
    List.Chain' (fun p q => q ∈ getNeighbors p)
      [mkState [1, 2, 3, 4, 5, 6, 7, 8, 0]] :=
  @search_path_valid manhattan_distance 1 AStar.init
    (mkState [1, 2, 3, 4, 5, 6, 7, 8, 0]) [mkState [1, 2, 3, 4, 5, 6, 7, 8, 0]]
    (by decide) (by decide)

/-- C1 (amended): a path returned by the engine is a genuine path from the
initial state to a goal, so its move count (length minus one) is an upper
bound on the true shortest-path cost under the move model with automatic
swaps; it is not always equal to it (see the counterexample, where the
returned path has 11 moves but the true cost is at most 9). -/
theorem search_path_reaches_goal {hf : State → List Board → WithTop ℕ}
    {fuel : ℕ} {a : AStar} {s : State} {path : List State}
    (hs : ValidState s) (h : (AStar.search hf fuel a s).1 = some path) :
    reachGoalIn (path.length - 1) s = true := by
  obtain ⟨hh, hl, hc⟩ := search_result_props hs h
  exact chain_reachGoalIn path s hh hl hc

/-- Witness for the amended C1 theorem at a goal state. -/
theorem search_path_reaches_goal_witness :
    reachGoalIn 0 (mkState [1, 2, 3, 4, 5, 6, 7, 8, 0]) = true :=
  @search_path_reaches_goal manhattan_distance 1 AStar.init
    (mkState [1, 2, 3, 4, 5, 6, 7, 8, 0]) [mkState [1, 2, 3, 4, 5, 6, 7, 8, 0]]
    (by decide) (by decide)

/-- C1 counterexample: from the valid initial state with board
[3,4,1,2,6,8,7,0,5], the engine with the Manhattan heuristic returns a path
of 12 states, i.e. 11 moves, yet a goal is reachable in 9 moves (exhibited
below move by move), so the returned move count exceeds the true
shortest-path cost. -/
theorem search_not_optimal_counterexample :
    (AStar.search manhattan_distance 100 AStar.init
        (mkState [3, 4, 1, 2, 6, 8, 7, 0, 5])).1.map List.length = some 12 ∧
    reachGoalIn 9 (mkState [3, 4, 1, 2, 6, 8, 7, 0, 5]) = true := by
  constructor
  · decide
  · have h0 : reachGoalIn 0
        (⟨[1, 2, 3, 4, 5, 6, 7, 8, 0], (2, 2)⟩ : State) = true := by decide
    have h1 : reachGoalIn 1
        (⟨[1, 2, 3, 4, 5, 6, 7, 0, 8], (2, 1)⟩ : State) = true :=
      reachGoalIn_succ_of_mem (by decide) h0
    have h2 : reachGoalIn 2
        (⟨[1, 2, 3, 4, 0, 6, 7, 5, 8], (1, 1)⟩ : State) = true :=
      reachGoalIn_succ_of_mem (by decide) h1
    have h3 : reachGoalIn 3
        (⟨[1, 0, 3, 4, 2, 6, 7, 5, 8], (0, 1)⟩ : State) = true :=
      reachGoalIn_succ_of_mem (by decide) h2
    have h4 : reachGoalIn 4
        (⟨[0, 1, 3, 2, 4, 6, 7, 5, 8], (0, 0)⟩ : State) = true :=
      reachGoalIn_succ_of_mem (by decide) h3
    have h5 : reachGoalIn 5
        (⟨[3, 0, 1, 4, 2, 6, 7, 5, 8], (0, 1)⟩ : State) = true :=
      reachGoalIn_succ_of_mem (by decide) h4
    have h6 : reachGoalIn 6
        (⟨[3, 4, 1, 2, 0, 6, 7, 5, 8], (1, 1)⟩ : State) = true :=
      reachGoalIn_succ_of_mem (by decide) h5
    have h7 : reachGoalIn 7
        (⟨[3, 4, 1, 2, 6, 0, 7, 5, 8], (1, 2)⟩ : State) = true :=
      reachGoalIn_succ_of_mem (by decide) h6
    have h8 : reachGoalIn 8
        (⟨[3, 4, 1, 2, 6, 8, 7, 5, 0], (2, 2)⟩ : State) = true :=
      reachGoalIn_succ_of_mem (by decide) h7
    exact reachGoalIn_succ_of_mem (by decide) h8

end Puzzle
